import Mathlib

/-!
Shallow embedding of the capability-model parser of
`lucadruda/iotc_nodejs_device_client` (file `src/unnamed/part_000`,
function `parse`) together with the client facade types declared in
`src/src/types/interfaces.ts`, and proofs of the specification claims
about them.

JSON documents already parsed by the host language are embedded as Lean
structures with `Option` fields for the fields the code tests for
presence/truthiness.  A JavaScript `TypeError` thrown by a field access
on `undefined` is embedded as `Except.error`.
-/

namespace IoTC

/-- An item of `interf.schema.contents`: fields `"@type"`, `name`,
`writable`.  The code reads `item["@type"]` (may be absent), `item.name`
and `item.writable` (passed through to `addProperty`). -/
structure Item where
  attype : Option String
  name : String
  writable : Option Bool
deriving DecidableEq, Repr

/-- The `schema` object of an interface entry; the code only reads
`schema.contents`, testing it for presence. -/
structure Schema where
  contents : Option (List Item)
deriving DecidableEq, Repr

/-- An entry of `capabilityModel.implements`: fields `"@type"`, `name`,
`"@id"`, `schema`.  `schema` is `Option` because the code can encounter
an entry without it (and then throws, see `processEntry`). -/
structure Interface where
  attype : Option String
  name : Option String
  id : Option String
  schema : Option Schema
deriving DecidableEq, Repr

/-- The capability model document: the code reads only
`capabilityModel.implements`. -/
structure CapabilityModel where
  «implements» : Option (List Interface)
deriving DecidableEq, Repr

/-- Modelled from the spec: the class `CommonInterface` of
`src/models/commonInterface` is not under `src/`; the spec describes it
as "an interface descriptor exposing typed collections of
property/command/telemetry names".  The constructor call site is
`new CommonInterface(name, interf["@id"], propertyCallback, commandCallback)`
and the mutators used are `addProperty(name, writable)`,
`addCommand(name)` and `addTelemetry(name)`, so the descriptor carries
the name, the `@id`, the two callbacks and the three collections. -/
structure CommonInterface (P C : Type) where
  name : String
  id : Option String
  propertyCallback : P
  commandCallback : C
  properties : List (String × Option Bool)
  commands : List String
  telemetry : List String
deriving DecidableEq, Repr

/-- Modelled from the spec: `new CommonInterface(name, id, pcb, ccb)`
starts with empty property/command/telemetry collections. -/
def CommonInterface.new (nm : String) (id : Option String) (pcb : P) (ccb : C) :
    CommonInterface P C :=
  ⟨nm, id, pcb, ccb, [], [], []⟩

/-- Modelled from the spec: `addProperty(name, writable)` records a
property name (with its writable flag). -/
def CommonInterface.addProperty (cInf : CommonInterface P C) (nm : String)
    (w : Option Bool) : CommonInterface P C :=
  { cInf with properties := cInf.properties ++ [(nm, w)] }

/-- Modelled from the spec: `addCommand(name)` records a command name. -/
def CommonInterface.addCommand (cInf : CommonInterface P C) (nm : String) :
    CommonInterface P C :=
  { cInf with commands := cInf.commands ++ [nm] }

/-- Modelled from the spec: `addTelemetry(name)` records a telemetry
name. -/
def CommonInterface.addTelemetry (cInf : CommonInterface P C) (nm : String) :
    CommonInterface P C :=
  { cInf with telemetry := cInf.telemetry ++ [nm] }

/-- The result map `res`, a JavaScript object used as a map from
interface name to descriptor: an association list whose keys are
unique. -/
abbrev InterfaceMap (P C : Type) := List (String × CommonInterface P C)

/-- `res[interfaceName] = cInf`: assignment into a JavaScript object.
If the key is present its value is replaced in place, otherwise the
binding is appended. -/
def setKey : InterfaceMap P C → String → CommonInterface P C → InterfaceMap P C
  | [], k, v => [(k, v)]
  | (k', v') :: rest, k, v =>
      if k' = k then (k, v) :: rest else (k', v') :: setKey rest k v

/-- The body of the inner `items.forEach`: dispatch on `item["@type"]`.
The source guards each branch with `item["@type"] && item["@type"] === S`;
the truthiness conjunct is redundant because the empty string differs
from every branch literal, so only the comparison remains. -/
def processItem (cInf : CommonInterface P C) (item : Item) : CommonInterface P C :=
  match item.attype with
  | some t =>
      if t = "Property" then cInf.addProperty item.name item.writable
      else if t = "Command" then cInf.addCommand item.name
      else if t = "Telemetry" then cInf.addTelemetry item.name
      else cInf
  | none => cInf

/-- The message of the `TypeError` raised by `interf.schema.contents`
when `interf.schema` is `undefined`. -/
def schemaTypeError : String :=
  "TypeError: Cannot read property contents of undefined"

/-- Construction of the descriptor for one interface entry given its
schema: `new CommonInterface(...)` followed by the walk of
`schema.contents` when it is present and non-empty. -/
def buildInterface (nm : String) (id : Option String) (pcb : P) (ccb : C)
    (sch : Schema) : CommonInterface P C :=
  let cInf := CommonInterface.new nm id pcb ccb
  match sch.contents with
  | some items => if 0 < items.length then items.foldl processItem cInf else cInf
  | none => cInf

/-- The body of the outer `capabilityModel.implements.forEach`:
process one entry `interf` against the accumulated map `res`.
`interf.schema.contents` throws when `interf.schema` is absent. -/
def processEntry (pcb : P) (ccb : C) (res : InterfaceMap P C) (interf : Interface) :
    Except String (InterfaceMap P C) :=
  if interf.attype = some "InterfaceInstance" then
    match interf.name with
    | some interfaceName =>
        if 0 < interfaceName.length then
          match interf.schema with
          | some sch =>
              Except.ok (setKey res interfaceName
                (buildInterface interfaceName interf.id pcb ccb sch))
          | none => Except.error schemaTypeError
        else Except.ok res
    | none => Except.ok res
  else Except.ok res

/-- `parse(capabilityModel, propertyCallback, commandCallback)` from
`src/unnamed/part_000`: `res = {}`, then, when the document and its
`implements` array are present and non-empty, one pass over the entries;
an exception thrown inside `forEach` propagates (short-circuits). -/
def parse (capabilityModel : Option CapabilityModel) (pcb : P) (ccb : C) :
    Except String (InterfaceMap P C) :=
  match capabilityModel with
  | some cm =>
      match cm.implements with
      | some l =>
          if 0 < l.length then l.foldlM (processEntry pcb ccb) [] else Except.ok []
      | none => Except.ok []
  | none => Except.ok []

/-! ### Derived descriptions of the walk, used to state the claims -/

/-- The guard under which an entry of `implements` contributes the key
`k` to the result: `"@type"` is `'InterfaceInstance'` and `name` is the
non-empty string `k`. -/
def selects (interf : Interface) (k : String) : Bool :=
  decide (interf.attype = some "InterfaceInstance" ∧ interf.name = some k ∧ 0 < k.length)

/-- An entry on which `parse` throws: an `InterfaceInstance` with a
non-empty name but no `schema` object. -/
def badInterface (interf : Interface) : Bool :=
  decide (interf.attype = some "InterfaceInstance") &&
  (match interf.name with
   | some nm => decide (0 < nm.length)
   | none => false) &&
  interf.schema.isNone

/-- The pure effect of one entry on the result map, in the non-throwing
branches (a throwing entry is left as a no-op here; `processEntry_eq`
relates the two). -/
def stepEntry (pcb : P) (ccb : C) (res : InterfaceMap P C) (interf : Interface) :
    InterfaceMap P C :=
  if interf.attype = some "InterfaceInstance" then
    match interf.name with
    | some nm =>
        if 0 < nm.length then
          match interf.schema with
          | some sch => setKey res nm (buildInterface nm interf.id pcb ccb sch)
          | none => res
        else res
    | none => res
  else res

/-- The names of the entries of a list that pass the selection guard. -/
def selNames (l : List Interface) : List String :=
  l.filterMap (fun i =>
    match i.attype, i.name with
    | some t, some nm => if t = "InterfaceInstance" ∧ 0 < nm.length then some nm else none
    | _, _ => none)

/-- The names selected from a whole document. -/
def selectedNames (doc : Option CapabilityModel) : List String :=
  match doc with
  | some cm => match cm.implements with
               | some l => selNames l
               | none => []
  | none => []

/-- `interf` is an entry of the document's `implements` array. -/
def entryOf (doc : Option CapabilityModel) (interf : Interface) : Prop :=
  ∃ cm l, doc = some cm ∧ cm.implements = some l ∧ interf ∈ l

/-- The document is absent, or its `implements` array is absent or
empty. -/
def emptyImplements (doc : Option CapabilityModel) : Prop :=
  doc = none ∨ ∃ cm, doc = some cm ∧ (cm.implements = none ∨ cm.implements = some [])

/-- The last entry of the list, in document order, that selects `k`. -/
def lastSelected (l : List Interface) (k : String) : Option Interface :=
  (l.filter (fun i => selects i k)).getLast?

/-- `lastSelected`, phrased as the left fold that mirrors how later
assignments to `res[k]` overwrite earlier ones. -/
def lastSelFold (l : List Interface) (k : String) : Option Interface :=
  l.foldl (fun o i => if selects i k then some i else o) none

/-- The last entry of the document's `implements` array selecting `k`. -/
def lastSelectedDoc (doc : Option CapabilityModel) (k : String) : Option Interface :=
  match doc with
  | some cm => match cm.implements with
               | some l => lastSelected l k
               | none => none
  | none => none

/-- The number of entries of the document's `implements` array. -/
def numImplements (doc : Option CapabilityModel) : Nat :=
  match doc with
  | some cm => match cm.implements with
               | some l => l.length
               | none => 0
  | none => 0

/-! ### Fuel-instrumented walk, for the termination claim

The fueled functions charge one unit of fuel per `implements` entry and
one per `schema.contents` item actually walked, and return the leftover
fuel; running out of fuel yields `none`. -/

/-- The inner `items.forEach` with fuel: one unit per item. -/
def itemsFuel (n : Nat) (cInf : CommonInterface P C) (items : List Item) :
    Option (Nat × CommonInterface P C) :=
  match items with
  | [] => some (n, cInf)
  | item :: rest =>
      match n with
      | 0 => none
      | n + 1 => itemsFuel n (processItem cInf item) rest

/-- The outer `implements.forEach` with fuel: one unit per entry, plus
the items of the entries whose contents are walked. -/
def entriesFuel (pcb : P) (ccb : C) (n : Nat) (acc : InterfaceMap P C)
    (l : List Interface) : Option (Nat × Except String (InterfaceMap P C)) :=
  match l with
  | [] => some (n, Except.ok acc)
  | interf :: rest =>
      match n with
      | 0 => none
      | n + 1 =>
          if interf.attype = some "InterfaceInstance" then
            match interf.name with
            | some nm =>
                if 0 < nm.length then
                  match interf.schema with
                  | some sch =>
                      match sch.contents with
                      | some items =>
                          if 0 < items.length then
                            match itemsFuel n (CommonInterface.new nm interf.id pcb ccb)
                                items with
                            | some (n2, cInf) =>
                                entriesFuel pcb ccb n2 (setKey acc nm cInf) rest
                            | none => none
                          else
                            entriesFuel pcb ccb n
                              (setKey acc nm (CommonInterface.new nm interf.id pcb ccb)) rest
                      | none =>
                          entriesFuel pcb ccb n
                            (setKey acc nm (CommonInterface.new nm interf.id pcb ccb)) rest
                  | none => some (n, Except.error schemaTypeError)
                else entriesFuel pcb ccb n acc rest
            | none => entriesFuel pcb ccb n acc rest
          else entriesFuel pcb ccb n acc rest

/-- Number of items of an entry's `schema.contents`. -/
def itemsCost (interf : Interface) : Nat :=
  match interf.schema with
  | some sch => match sch.contents with
                | some items => items.length
                | none => 0
  | none => 0

/-- Total visit budget of a list of entries: one visit per entry plus
one per item of its contents. -/
def entriesCost : List Interface → Nat
  | [] => 0
  | interf :: rest => 1 + itemsCost interf + entriesCost rest

/-- Total visit budget of a document. -/
def docCost (doc : Option CapabilityModel) : Nat :=
  match doc with
  | some cm => match cm.implements with
               | some l => entriesCost l
               | none => 0
  | none => 0

/-- `parse` with a fuel budget: `none` when the budget is exhausted. -/
def parseFuel (fuel : Nat) (capabilityModel : Option CapabilityModel) (pcb : P) (ccb : C) :
    Option (Except String (InterfaceMap P C)) :=
  match capabilityModel with
  | some cm =>
      match cm.implements with
      | some l =>
          if 0 < l.length then (entriesFuel pcb ccb fuel [] l).map Prod.snd
          else some (Except.ok [])
      | none => some (Except.ok [])
  | none => some (Except.ok [])

/-! ### Mutation-instrumented walk, for the frame claim

Every access the source makes to the input document is a read; the
instrumented walk threads the document state through each step and
returns it next to the result, so that "the input is unchanged" is a
statement about `parse` rather than a convention of the embedding. -/

/-- One item step, returning the item's state after the step: the body
only reads `item["@type"]`, `item.name` and `item.writable`. -/
def processItemMut (cInf : CommonInterface P C) (item : Item) :
    CommonInterface P C × Item :=
  match item.attype with
  | some t =>
      if t = "Property" then (cInf.addProperty item.name item.writable, item)
      else if t = "Command" then (cInf.addCommand item.name, item)
      else if t = "Telemetry" then (cInf.addTelemetry item.name, item)
      else (cInf, item)
  | none => (cInf, item)

/-- The inner `forEach`, threading the list of items. -/
def itemsMut (cInf : CommonInterface P C) : List Item → CommonInterface P C × List Item
  | [] => (cInf, [])
  | item :: rest =>
      let r := processItemMut cInf item
      let r2 := itemsMut r.1 rest
      (r2.1, r.2 :: r2.2)

/-- One entry step, returning the entry's state after the step; the
walked items are threaded back into the entry's schema. -/
def processEntryMut (pcb : P) (ccb : C) (res : InterfaceMap P C) (interf : Interface) :
    Except String (InterfaceMap P C) × Interface :=
  if interf.attype = some "InterfaceInstance" then
    match interf.name with
    | some nm =>
        if 0 < nm.length then
          match interf.schema with
          | some sch =>
              match sch.contents with
              | some items =>
                  if 0 < items.length then
                    let r := itemsMut (CommonInterface.new nm interf.id pcb ccb) items
                    (Except.ok (setKey res nm r.1),
                     { interf with schema := some { contents := some r.2 } })
                  else
                    (Except.ok (setKey res nm (CommonInterface.new nm interf.id pcb ccb)), interf)
              | none =>
                  (Except.ok (setKey res nm (CommonInterface.new nm interf.id pcb ccb)), interf)
          | none => (Except.error schemaTypeError, interf)
        else (Except.ok res, interf)
    | none => (Except.ok res, interf)
  else (Except.ok res, interf)

/-- The outer `forEach`, threading the list of entries; a thrown
exception stops the walk with the remaining entries untouched. -/
def entriesMut (pcb : P) (ccb : C) (acc : InterfaceMap P C) :
    List Interface → Except String (InterfaceMap P C) × List Interface
  | [] => (Except.ok acc, [])
  | interf :: rest =>
      let r := processEntryMut pcb ccb acc interf
      match r.1 with
      | Except.error e => (Except.error e, r.2 :: rest)
      | Except.ok acc2 =>
          let r2 := entriesMut pcb ccb acc2 rest
          (r2.1, r.2 :: r2.2)

/-- `parse`, threading the document state through the walk. -/
def parseMut (capabilityModel : Option CapabilityModel) (pcb : P) (ccb : C) :
    Except String (InterfaceMap P C) × Option CapabilityModel :=
  match capabilityModel with
  | some cm =>
      match cm.implements with
      | some l =>
          if 0 < l.length then
            let r := entriesMut pcb ccb [] l
            (r.1, some { cm with «implements» := some r.2 })
          else (Except.ok [], some cm)
      | none => (Except.ok [], some cm)
  | none => (Except.ok [], none)

/-! ### The client facade (`src/src/types/interfaces.ts`)

`interfaces.ts` declares the facade (`IIoTCClient`, `IIoTCProperty`,
`IIoTCCommand`) with, for each operation, a promise-returning overload
and a callback-taking overload; the implementation behind the
declarations is not under `src/`, so the delegation is modelled from the
spec. -/

/-- `OperationStatus` from `interfaces.ts`: `SUCCESS = 200`,
`FAILURE = 500`. -/
inductive OperationStatus where
  | SUCCESS
  | FAILURE
deriving DecidableEq, Repr

/-- The numeric value of an `OperationStatus` member. -/
def OperationStatus.code : OperationStatus → Nat
  | .SUCCESS => 200
  | .FAILURE => 500

/-- `Result` from `interfaces.ts`: a class with one optional field
`code?: any`; the `any` is a type parameter here. -/
structure Result (α : Type) where
  code : Option α
deriving DecidableEq, Repr

/-- An error delivered to a `SendCallback` (cf. `ConnectionError`, an
`Error` with a message and an optional code). -/
structure IoTCError where
  message : String
  code : Option Nat
deriving DecidableEq, Repr

/-- `SendCallback = (err: Error, result: Result) => void` from
`interfaces.ts`: exactly one of the two arguments is populated. -/
def SendCallback (α β : Type) := Option IoTCError → Option (Result α) → β

/-- Modelled from the spec: the operations of the facade that exist in
both call styles — `connect`/`disconnect` and `sendTelemetry`/
`sendProperty` on `IIoTCClient`, `acknowledge`/`update` on
`IIoTCCommand`, `report` on `IIoTCProperty` (`π` is the payload type,
message arguments are optional per the overload lists). -/
inductive ClientOp (π : Type) where
  | connect
  | disconnect
  | sendTelemetry (payload : π) (interfaceName : String)
  | sendProperty (payload : π) (interfaceName : String)
  | commandAcknowledge (status : OperationStatus) (message : Option String)
  | commandUpdate (status : OperationStatus) (message : Option String)
  | propertyReport (status : OperationStatus) (message : Option String)
deriving DecidableEq

/-- Modelled from the spec: the injected transport/provisioning
implementation, as the outcome it produces for each operation. -/
def Transport (π α : Type) := ClientOp π → Except IoTCError (Result α)

/-- Modelled from the spec: the promise-returning call style — the call
is forwarded to the injected transport and the promise settles with its
outcome. -/
def promiseForm (t : Transport π α) (op : ClientOp π) : Except IoTCError (Result α) :=
  t op

/-- Delivery of an outcome to a node-style callback: an error goes to
the first argument, a result to the second. -/
def deliver (cb : SendCallback α β) : Except IoTCError (Result α) → β
  | Except.ok r => cb none (some r)
  | Except.error e => cb (some e) none

/-- Modelled from the spec: the callback call style — the call is
forwarded to the same injected transport and its outcome is delivered to
the callback. -/
def callbackForm (t : Transport π α) (op : ClientOp π) (cb : SendCallback α β) : β :=
  match t op with
  | Except.ok r => cb none (some r)
  | Except.error e => cb (some e) none

/-! ### Concrete documents used by witnesses and counterexamples -/

/-- A well-formed document: one interface `"a"` with one property, one
command, one telemetry item, one item without `"@type"` and one with an
unknown `"@type"`. -/
def docA : Option CapabilityModel :=
  some ⟨some [⟨some "InterfaceInstance", some "a", some "urn:a",
    some ⟨some [⟨some "Property", "p1", some true⟩, ⟨some "Command", "c1", none⟩,
                ⟨none, "x", none⟩, ⟨some "Telemetry", "t1", none⟩,
                ⟨some "Other", "y", none⟩]⟩⟩]⟩

/-- A document whose single `InterfaceInstance` entry has a non-empty
name but no `schema` object. -/
def docNoSchema : Option CapabilityModel :=
  some ⟨some [⟨some "InterfaceInstance", some "a", none, none⟩]⟩

/-- A document with two `InterfaceInstance` entries that share the name
`"a"` but differ in `"@id"` and contents. -/
def docDup : Option CapabilityModel :=
  some ⟨some [⟨some "InterfaceInstance", some "a", some "u1",
                some ⟨some [⟨some "Property", "p1", none⟩]⟩⟩,
              ⟨some "InterfaceInstance", some "a", some "u2", some ⟨some []⟩⟩]⟩

/-- An entry whose `schema` is present but whose `contents` is absent. -/
def entryNoContents : Interface :=
  ⟨some "InterfaceInstance", some "b", some "urn:b", some ⟨none⟩⟩

/-- The map `parse` returns on `docA`. -/
def mapA : InterfaceMap Unit Unit :=
  [("a", ⟨"a", some "urn:a", (), (), [("p1", some true)], ["c1"], ["t1"]⟩)]

/-- The map `parse` returns on `docDup`: the second entry won. -/
def mapDup : InterfaceMap Unit Unit :=
  [("a", ⟨"a", some "u2", (), (), [], [], []⟩)]

/-! ### Helper lemmas -/

theorem lookup_cons {β : Type} (k k' : String) (v : β) (rest : List (String × β)) :
    List.lookup k ((k', v) :: rest) = if k = k' then some v else List.lookup k rest := by
  by_cases h : k = k'
  · subst h; simp [List.lookup]
  · have hb : (k == k') = false := beq_eq_false_iff_ne.mpr h
    simp [List.lookup, hb, h]

theorem lookup_setKey (m : InterfaceMap P C) (nm k : String) (cInf : CommonInterface P C) :
    List.lookup k (setKey m nm cInf) = if k = nm then some cInf else List.lookup k m := by
  induction m with
  | nil => by_cases hk : k = nm <;> simp [setKey, lookup_cons, hk]
  | cons p rest ih =>
      obtain ⟨k', v'⟩ := p
      by_cases h : k' = nm
      · subst h
        have hs : setKey ((k', v') :: rest) k' cInf = (k', cInf) :: rest := by
          simp [setKey]
        rw [hs, lookup_cons, lookup_cons]
        by_cases hk : k = k' <;> simp [hk]
      · simp only [setKey, if_neg h]
        rw [lookup_cons, lookup_cons, ih]
        by_cases hk : k = k'
        · subst hk
          have : ¬k = nm := fun hkn => h hkn
          simp [this]
        · simp [hk]

theorem length_setKey (m : InterfaceMap P C) (nm : String) (cInf : CommonInterface P C) :
    (setKey m nm cInf).length ≤ m.length + 1 := by
  induction m with
  | nil => simp [setKey]
  | cons p rest ih =>
      obtain ⟨k', v'⟩ := p
      by_cases h : k' = nm
      · simp [setKey, h]
      · simp only [setKey, if_neg h, List.length_cons]
        omega

theorem processEntry_eq (pcb : P) (ccb : C) (res : InterfaceMap P C) (interf : Interface) :
    processEntry pcb ccb res interf =
      if badInterface interf then Except.error schemaTypeError
      else Except.ok (stepEntry pcb ccb res interf) := by
  obtain ⟨t, nmo, id, scho⟩ := interf
  rcases nmo with _ | nm
  · simp [processEntry, stepEntry, badInterface]
  · rcases scho with _ | sch <;>
      by_cases ht : t = some "InterfaceInstance" <;>
      by_cases hnm : 0 < nm.length <;>
      simp [processEntry, stepEntry, badInterface, ht, hnm]

theorem foldlM_processEntry_eq (pcb : P) (ccb : C) (l : List Interface)
    (acc : InterfaceMap P C) :
    l.foldlM (processEntry pcb ccb) acc =
      if l.all (fun i => !badInterface i) then
        Except.ok (l.foldl (stepEntry pcb ccb) acc)
      else Except.error schemaTypeError := by
  induction l generalizing acc with
  | nil => rfl
  | cons i rest ih =>
      rw [List.foldlM_cons, processEntry_eq]
      by_cases hb : badInterface i
      · rw [if_pos hb]
        have : ((i :: rest).all fun j => !badInterface j) = false := by simp [hb]
        rw [this, if_neg (by simp)]
        rfl
      · rw [if_neg hb]
        have hstep : ((i :: rest).all fun j => !badInterface j) =
            (rest.all fun j => !badInterface j) := by simp [hb]
        rw [hstep, List.foldl_cons]
        calc (Except.ok (stepEntry pcb ccb acc i) >>= fun a =>
                List.foldlM (processEntry pcb ccb) a rest)
            = List.foldlM (processEntry pcb ccb) (stepEntry pcb ccb acc i) rest := rfl
          _ = _ := ih (stepEntry pcb ccb acc i)

theorem foldl_sel_init (l : List Interface) (k : String) (o : Option Interface) :
    l.foldl (fun o i => if selects i k then some i else o) o =
      (lastSelFold l k).elim o some := by
  induction l generalizing o with
  | nil => rfl
  | cons j rest ih =>
      rw [List.foldl_cons, ih]
      have h2 : lastSelFold (j :: rest) k =
          (lastSelFold rest k).elim (if selects j k then some j else none) some := by
        rw [lastSelFold, List.foldl_cons]
        exact ih (if selects j k then some j else none)
      cases hr : lastSelFold rest k with
      | some i => simp [h2, hr, Option.elim]
      | none => by_cases hs : selects j k <;> simp [h2, hr, hs, Option.elim]

theorem lastSelFold_mem (l : List Interface) (k : String) (i : Interface)
    (h : lastSelFold l k = some i) : i ∈ l ∧ selects i k = true := by
  induction l with
  | nil => simp [lastSelFold] at h
  | cons j rest ih =>
      have h2 : lastSelFold (j :: rest) k =
          (lastSelFold rest k).elim (if selects j k then some j else none) some := by
        rw [lastSelFold, List.foldl_cons]
        exact foldl_sel_init rest k _
      cases hr : lastSelFold rest k with
      | some i2 =>
          rw [h2, hr] at h
          simp only [Option.elim] at h
          obtain ⟨hm, hs⟩ := ih (hr.trans (congrArg some (Option.some_injective _ h)))
          exact ⟨List.mem_cons_of_mem _ hm, hs⟩
      | none =>
          rw [h2, hr] at h
          simp only [Option.elim] at h
          by_cases hs : selects j k
          · rw [if_pos hs] at h
            obtain rfl : j = i := Option.some_injective _ h
            exact ⟨List.mem_cons_self _ _, hs⟩
          · rw [if_neg hs] at h
            exact absurd h (Option.noConfusion)

theorem lastSelFold_none_iff (l : List Interface) (k : String) :
    lastSelFold l k = none ↔ ∀ i ∈ l, selects i k = false := by
  induction l with
  | nil => simp [lastSelFold]
  | cons j rest ih =>
      have h2 : lastSelFold (j :: rest) k =
          (lastSelFold rest k).elim (if selects j k then some j else none) some := by
        rw [lastSelFold, List.foldl_cons]
        exact foldl_sel_init rest k _
      rw [h2]
      cases hr : lastSelFold rest k with
      | some i2 =>
          simp only [Option.elim]
          constructor
          · intro h; exact absurd h (Option.noConfusion)
          · intro h
            have := (ih.mpr fun i hi => h i (List.mem_cons_of_mem _ hi))
            rw [hr] at this
            exact absurd this (Option.noConfusion)
      | none =>
          simp only [Option.elim]
          by_cases hs : selects j k
          · rw [if_pos hs]
            constructor
            · intro h; exact absurd h (Option.noConfusion)
            · intro h
              have := h j (List.mem_cons_self _ _)
              rw [hs] at this
              exact absurd this (by simp)
          · rw [if_neg hs]
            constructor
            · intro _ i hi
              rcases List.mem_cons.mp hi with rfl | hi2
              · exact Bool.eq_false_iff.mpr hs
              · exact (ih.mp hr) i hi2
            · intro _; rfl

theorem lastSelected_eq_fold (l : List Interface) (k : String) :
    lastSelected l k = lastSelFold l k := by
  induction l using List.reverseRecOn with
  | nil => rfl
  | append_singleton l a ih =>
      by_cases hs : selects a k
      · have hfil : (l ++ [a]).filter (fun i => selects i k) =
            l.filter (fun i => selects i k) ++ [a] := by
          rw [List.filter_append]
          simp [hs]
        rw [lastSelected, hfil, List.getLast?_concat]
        rw [lastSelFold, List.foldl_append, List.foldl_cons, List.foldl_nil, if_pos hs]
      · have hfil : (l ++ [a]).filter (fun i => selects i k) =
            l.filter (fun i => selects i k) := by
          rw [List.filter_append]
          simp [hs]
        have hfold : lastSelFold (l ++ [a]) k = lastSelFold l k := by
          simp only [lastSelFold, List.foldl_append, List.foldl_cons, List.foldl_nil]
          rw [if_neg hs]
        rw [lastSelected, hfil, ← lastSelected, ih, hfold]

theorem lookup_stepEntry_of_not_selects (pcb : P) (ccb : C) (acc : InterfaceMap P C)
    (j : Interface) (k : String) (h : selects j k = false) :
    List.lookup k (stepEntry pcb ccb acc j) = List.lookup k acc := by
  obtain ⟨t, nmo, id, scho⟩ := j
  by_cases ht : t = some "InterfaceInstance"
  · rcases nmo with _ | nm
    · simp [stepEntry, ht]
    · rcases scho with _ | sch
      · by_cases hnm : 0 < nm.length <;> simp [stepEntry, ht, hnm]
      · by_cases hnm : 0 < nm.length
        · have hneq : ¬k = nm := by
            intro hk
            subst hk
            simp [selects, ht, hnm] at h
          simp [stepEntry, ht, hnm, lookup_setKey, hneq]
        · simp [stepEntry, ht, hnm]
  · simp [stepEntry, ht]

theorem lookup_foldl_of_none (pcb : P) (ccb : C) (l : List Interface) (k : String)
    (h : ∀ i ∈ l, selects i k = false) (acc : InterfaceMap P C) :
    List.lookup k (l.foldl (stepEntry pcb ccb) acc) = List.lookup k acc := by
  induction l generalizing acc with
  | nil => rfl
  | cons j rest ih =>
      rw [List.foldl_cons, ih (fun i hi => h i (List.mem_cons_of_mem _ hi)),
        lookup_stepEntry_of_not_selects pcb ccb acc j k (h j (List.mem_cons_self _ _))]

theorem lookup_foldl_of_some (pcb : P) (ccb : C) (l : List Interface) (k : String)
    (i : Interface) (hsel : lastSelFold l k = some i)
    (hgood : ∀ j ∈ l, badInterface j = false) (acc : InterfaceMap P C) :
    ∃ sch, i.schema = some sch ∧
      List.lookup k (l.foldl (stepEntry pcb ccb) acc) =
        some (buildInterface k i.id pcb ccb sch) := by
  induction l generalizing acc with
  | nil => simp [lastSelFold] at hsel
  | cons j rest ih =>
      have h2 : lastSelFold (j :: rest) k =
          (lastSelFold rest k).elim (if selects j k then some j else none) some := by
        rw [lastSelFold, List.foldl_cons]
        exact foldl_sel_init rest k _
      rw [List.foldl_cons]
      cases hr : lastSelFold rest k with
      | some i2 =>
          rw [h2, hr] at hsel
          simp only [Option.elim] at hsel
          obtain rfl : i2 = i := Option.some_injective _ hsel
          exact ih hr (fun j2 hj2 => hgood j2 (List.mem_cons_of_mem _ hj2)) _
      | none =>
          rw [h2, hr] at hsel
          simp only [Option.elim] at hsel
          by_cases hs : selects j k
          · rw [if_pos hs] at hsel
            have hji : j = i := Option.some_injective _ hsel
            subst hji
            rw [lookup_foldl_of_none pcb ccb rest k ((lastSelFold_none_iff rest k).mp hr) _]
            obtain ⟨ht, hnm, hk⟩ : j.attype = some "InterfaceInstance" ∧
                j.name = some k ∧ 0 < k.length := by
              simpa [selects] using hs
            obtain ⟨sch, hsch⟩ : ∃ sch, j.schema = some sch := by
              have hb := hgood j (List.mem_cons_self _ _)
              rcases hscho : j.schema with _ | sch
              · rw [badInterface, hnm, hscho] at hb
                simp [ht, hk] at hb
              · exact ⟨sch, rfl⟩
            refine ⟨sch, hsch, ?_⟩
            obtain ⟨t, nmo, id, scho⟩ := j
            simp only at ht hnm hsch
            subst ht; subst hnm; subst hsch
            simp [stepEntry, hk, lookup_setKey]
          · rw [if_neg hs] at hsel
            exact absurd hsel (Option.noConfusion)

theorem selNames_mem (l : List Interface) (k : String) :
    k ∈ selNames l ↔ ∃ i, i ∈ l ∧ selects i k = true := by
  rw [selNames, List.mem_filterMap]
  constructor
  · rintro ⟨i, hi, hf⟩
    refine ⟨i, hi, ?_⟩
    obtain ⟨t, nmo, id, scho⟩ := i
    rcases t with _ | t <;> rcases nmo with _ | nm <;> simp at hf
    obtain ⟨⟨ht, hlen⟩, rfl⟩ := hf
    simp [selects, ht, hlen]
  · rintro ⟨i, hi, hs⟩
    refine ⟨i, hi, ?_⟩
    obtain ⟨ht, hnm, hk⟩ : i.attype = some "InterfaceInstance" ∧
        i.name = some k ∧ 0 < k.length := by simpa [selects] using hs
    obtain ⟨t, nmo, id, scho⟩ := i
    simp only at ht hnm
    subst ht; subst hnm
    simp [hk]

theorem badInterface_iff (interf : Interface) :
    badInterface interf = true ↔
      ∃ nm, interf.attype = some "InterfaceInstance" ∧ interf.name = some nm ∧
        0 < nm.length ∧ interf.schema = none := by
  obtain ⟨t, nmo, id, scho⟩ := interf
  rcases nmo with _ | nm <;> rcases scho with _ | sch <;> simp [badInterface]

theorem length_stepEntry (pcb : P) (ccb : C) (acc : InterfaceMap P C) (interf : Interface) :
    (stepEntry pcb ccb acc interf).length ≤ acc.length + 1 := by
  obtain ⟨t, nmo, id, scho⟩ := interf
  by_cases ht : t = some "InterfaceInstance"
  · rcases nmo with _ | nm
    · simp [stepEntry, ht]
    · rcases scho with _ | sch <;> by_cases hnm : 0 < nm.length <;>
        simp [stepEntry, ht, hnm, length_setKey]
  · simp [stepEntry, ht]

theorem length_foldl_stepEntry (pcb : P) (ccb : C) (l : List Interface)
    (acc : InterfaceMap P C) :
    (l.foldl (stepEntry pcb ccb) acc).length ≤ acc.length + l.length := by
  induction l generalizing acc with
  | nil => simp
  | cons i rest ih =>
      rw [List.foldl_cons]
      calc (rest.foldl (stepEntry pcb ccb) (stepEntry pcb ccb acc i)).length
          ≤ (stepEntry pcb ccb acc i).length + rest.length := ih _
        _ ≤ (acc.length + 1) + rest.length := by
            have := length_stepEntry pcb ccb acc i
            omega
        _ = acc.length + (i :: rest).length := by simp; omega

theorem foldl_processItem_collections (items : List Item) (cInf : CommonInterface P C) :
    (items.foldl processItem cInf).properties =
      cInf.properties ++
        (items.filter (fun it => it.attype == some "Property")).map
          (fun it => (it.name, it.writable)) ∧
    (items.foldl processItem cInf).commands =
      cInf.commands ++
        (items.filter (fun it => it.attype == some "Command")).map Item.name ∧
    (items.foldl processItem cInf).telemetry =
      cInf.telemetry ++
        (items.filter (fun it => it.attype == some "Telemetry")).map Item.name := by
  induction items generalizing cInf with
  | nil => simp
  | cons it rest ih =>
      rw [List.foldl_cons]
      rcases hat : it.attype with _ | t
      · have hstep : processItem cInf it = cInf := by simp [processItem, hat]
        rw [hstep]
        obtain ⟨h1, h2, h3⟩ := ih cInf
        simp [h1, h2, h3, List.filter_cons, hat]
      · by_cases hp : t = "Property"
        · have hstep : processItem cInf it = cInf.addProperty it.name it.writable := by
            simp [processItem, hat, hp]
          rw [hstep]
          obtain ⟨h1, h2, h3⟩ := ih (cInf.addProperty it.name it.writable)
          rw [h1, h2, h3]
          simp [List.filter_cons, hat, hp, CommonInterface.addProperty]
        · by_cases hc : t = "Command"
          · have hstep : processItem cInf it = cInf.addCommand it.name := by
              simp [processItem, hat, hp, hc]
            rw [hstep]
            obtain ⟨h1, h2, h3⟩ := ih (cInf.addCommand it.name)
            rw [h1, h2, h3]
            simp [List.filter_cons, hat, hp, hc, CommonInterface.addCommand]
          · by_cases htl : t = "Telemetry"
            · have hstep : processItem cInf it = cInf.addTelemetry it.name := by
                simp [processItem, hat, hp, hc, htl]
              rw [hstep]
              obtain ⟨h1, h2, h3⟩ := ih (cInf.addTelemetry it.name)
              rw [h1, h2, h3]
              simp [List.filter_cons, hat, hp, hc, htl, CommonInterface.addTelemetry]
            · have hstep : processItem cInf it = cInf := by
                simp [processItem, hat, hp, hc, htl]
              rw [hstep]
              obtain ⟨h1, h2, h3⟩ := ih cInf
              simp [h1, h2, h3, List.filter_cons, hat, hp, hc, htl]
theorem parse_ok_inv (doc : Option CapabilityModel) (pcb : P) (ccb : C)
    (m : InterfaceMap P C) (h : parse doc pcb ccb = Except.ok m) :
    (emptyImplements doc ∧ m = []) ∨
    (∃ cm l, doc = some cm ∧ cm.implements = some l ∧ 0 < l.length ∧
      (∀ i ∈ l, badInterface i = false) ∧ m = l.foldl (stepEntry pcb ccb) []) := by
  cases doc with
  | none =>
      left
      refine ⟨Or.inl rfl, ?_⟩
      simp only [parse, Except.ok.injEq] at h
      exact h.symm
  | some cm =>
      rcases him : cm.implements with _ | l
      · left
        refine ⟨Or.inr ⟨cm, rfl, Or.inl him⟩, ?_⟩
        simp only [parse, him, Except.ok.injEq] at h
        exact h.symm
      · by_cases hl : 0 < l.length
        · right
          rw [parse, him] at h
          have h2 : (if 0 < l.length then List.foldlM (processEntry pcb ccb) [] l
              else Except.ok []) = Except.ok m := h
          rw [if_pos hl, foldlM_processEntry_eq] at h2
          by_cases hall : l.all (fun i => !badInterface i)
          · rw [if_pos hall] at h2
            refine ⟨cm, l, rfl, him, hl, ?_, (Except.ok.inj h2).symm⟩
            intro i hi
            have := List.all_eq_true.mp hall i hi
            cases hbv : badInterface i
            · rfl
            · rw [hbv] at this; simp at this
          · rw [if_neg hall] at h2
            exact absurd h2 (by simp)
        · left
          have hl0 : l = [] := by
            cases l with
            | nil => rfl
            | cons a as => simp at hl
          subst hl0
          refine ⟨Or.inr ⟨cm, rfl, Or.inr him⟩, ?_⟩
          rw [parse, him] at h
          have h2 : (if 0 < ([] : List Interface).length then
              List.foldlM (processEntry pcb ccb) [] [] else Except.ok []) = Except.ok m := h
          rw [if_neg hl] at h2
          exact (Except.ok.inj h2).symm

/-- Claim C2: for each interface instance, the descriptor's property
collection holds exactly the names of the items of
`interf.schema.contents` whose `"@type"` is `'Property'`, the command
collection exactly those with `'Command'`, the telemetry collection
exactly those with `'Telemetry'`; an item with a missing or other
`"@type"` reaches none of the three collections. -/
theorem buildInterface_collections (pcb : P) (ccb : C) (nm : String)
    (id : Option String) (sch : Schema) :
    ((buildInterface nm id pcb ccb sch).properties).map Prod.fst =
      ((sch.contents.getD []).filter
        (fun it => it.attype == some "Property")).map Item.name ∧
    (buildInterface nm id pcb ccb sch).commands =
      ((sch.contents.getD []).filter
        (fun it => it.attype == some "Command")).map Item.name ∧
    (buildInterface nm id pcb ccb sch).telemetry =
      ((sch.contents.getD []).filter
        (fun it => it.attype == some "Telemetry")).map Item.name := by
  rcases hc : sch.contents with _ | items
  · simp [buildInterface, hc, CommonInterface.new]
  · by_cases hl : 0 < items.length
    · obtain ⟨h1, h2, h3⟩ := foldl_processItem_collections items
        (CommonInterface.new nm id pcb ccb : CommonInterface P C)
      have hb : buildInterface nm id pcb ccb sch =
          items.foldl processItem (CommonInterface.new nm id pcb ccb) := by
        simp [buildInterface, hc, hl]
      refine ⟨?_, ?_, ?_⟩
      · rw [hb, h1]
        simp [CommonInterface.new, hc, List.map_map, Function.comp_def]
      · rw [hb, h2]
        simp [CommonInterface.new, hc]
      · rw [hb, h3]
        simp [CommonInterface.new, hc]
    · have hl0 : items = [] := by
        cases items with
        | nil => rfl
        | cons a as => simp at hl
      subst hl0
      simp [buildInterface, hc, CommonInterface.new]

/-- Claim C3: `parse` performs no error recovery — it raises an error
if and only if some entry of `capabilityModel.implements` has `"@type"`
equal to `'InterfaceInstance'` and a non-empty name but no schema
object; in particular, when every such entry carries a schema object,
`parse` never raises and returns a map. -/
theorem parse_error_iff (doc : Option CapabilityModel) (pcb : P) (ccb : C) :
    (∃ e, parse doc pcb ccb = Except.error e) ↔
      (∃ interf nm, entryOf doc interf ∧ interf.attype = some "InterfaceInstance" ∧
        interf.name = some nm ∧ 0 < nm.length ∧ interf.schema = none) := by
  cases doc with
  | none => simp [parse, entryOf]
  | some cm =>
      rcases him : cm.implements with _ | l
      · simp [parse, him, entryOf]
      · have hmem : ∀ interf, entryOf (some cm) interf ↔ interf ∈ l := by
          intro interf
          constructor
          · rintro ⟨cm2, l2, heq, him2, hm2⟩
            obtain rfl : cm = cm2 := Option.some_injective _ heq
            rw [him] at him2
            obtain rfl : l = l2 := Option.some_injective _ him2
            exact hm2
          · intro hm2
            exact ⟨cm, l, rfl, him, hm2⟩
        by_cases hl : 0 < l.length
        · have hp : parse (some cm) pcb ccb =
              if l.all (fun i => !badInterface i) then
                Except.ok (l.foldl (stepEntry pcb ccb) [])
              else Except.error schemaTypeError := by
            rw [parse, him]
            show (if 0 < l.length then List.foldlM (processEntry pcb ccb) [] l
                else Except.ok []) = _
            rw [if_pos hl, foldlM_processEntry_eq]
          constructor
          · rintro ⟨e, he⟩
            rw [hp] at he
            by_cases hall : l.all (fun i => !badInterface i)
            · rw [if_pos hall] at he
              exact absurd he (by simp)
            · rw [List.all_eq_true] at hall
              push_neg at hall
              obtain ⟨i, hi, hbad⟩ := hall
              have hbad2 : badInterface i = true := by
                cases hbv : badInterface i
                · rw [hbv] at hbad
                  simp at hbad
                · rfl
              obtain ⟨nm, h1, h2, h3, h4⟩ := (badInterface_iff i).mp hbad2
              exact ⟨i, nm, (hmem i).mpr hi, h1, h2, h3, h4⟩
          · rintro ⟨i, nm, hin, h1, h2, h3, h4⟩
            have hbad : badInterface i = true := (badInterface_iff i).mpr ⟨nm, h1, h2, h3, h4⟩
            have hall : ¬(l.all (fun j => !badInterface j) = true) := by
              rw [List.all_eq_true]
              push_neg
              exact ⟨i, (hmem i).mp hin, by simp [hbad]⟩
            rw [hp, if_neg hall]
            exact ⟨schemaTypeError, rfl⟩
        · have hl0 : l = [] := by
            cases l with
            | nil => rfl
            | cons a as => simp at hl
          subst hl0
          constructor
          · rintro ⟨e, he⟩
            rw [parse, him] at he
            exact absurd he (by simp)
          · rintro ⟨i, nm, hin, h1, h2, h3, h4⟩
            exact absurd ((hmem i).mp hin) (by simp)

/-- Claim C6: `parse` is stateless and deterministic — structurally
equal documents (with the same callbacks) produce equal interface maps;
the result depends on nothing but the arguments. -/
theorem parse_deterministic (d1 d2 : Option CapabilityModel) (pcb : P) (ccb : C)
    (h : d1 = d2) : parse d1 pcb ccb = parse d2 pcb ccb := by
  rw [h]

/-- Witness for the determinism claim at a concrete document. -/
theorem parse_deterministic_witness :
    parse docA (() : Unit) (() : Unit) = parse docA (() : Unit) (() : Unit) :=
  parse_deterministic docA docA () () rfl

/-- Claim C8: when several `InterfaceInstance` entries share a non-empty
name, the returned map binds that name to the descriptor built from the
last such entry in document order, and the map never has more keys than
`implements` has entries. -/
theorem parse_duplicate_last_wins (doc : Option CapabilityModel) (pcb : P) (ccb : C)
    (m : InterfaceMap P C) (h : parse doc pcb ccb = Except.ok m) :
    (∀ k interf, lastSelectedDoc doc k = some interf →
      ∃ sch, interf.schema = some sch ∧
        List.lookup k m = some (buildInterface k interf.id pcb ccb sch)) ∧
    m.length ≤ numImplements doc := by
  rcases parse_ok_inv doc pcb ccb m h with ⟨hemp, rfl⟩ | ⟨cm, l, rfl, him, hl, hgood, rfl⟩
  · constructor
    · intro k interf hlast
      rcases hemp with rfl | ⟨cm, rfl, hio⟩
      · simp [lastSelectedDoc] at hlast
      · rcases hio with hio | hio <;>
          simp [lastSelectedDoc, hio, lastSelected] at hlast
    · simp
  · constructor
    · intro k interf hlast
      have hlast2 : lastSelFold l k = some interf := by
        rw [← lastSelected_eq_fold]
        simpa [lastSelectedDoc, him] using hlast
      exact lookup_foldl_of_some pcb ccb l k interf hlast2 hgood []
    · have h1 := length_foldl_stepEntry pcb ccb l ([] : InterfaceMap P C)
      simpa [numImplements, him] using h1

/-- Witness for the duplicate-name claim on a two-entry document whose
entries share the name `"a"`. -/
theorem parse_duplicate_last_wins_witness :
    mapDup.length ≤ numImplements docDup :=
  (parse_duplicate_last_wins docDup () () mapDup rfl).2

/-- Claim C9: an `InterfaceInstance` entry with a non-empty name whose
schema object is present but whose `contents` is absent or empty is
still included in the result, bound to a descriptor with empty property,
command, and telemetry collections, and raises no error. -/
theorem processEntry_empty_contents (pcb : P) (ccb : C) (acc : InterfaceMap P C)
    (interf : Interface) (nm : String) (sch : Schema)
    (h1 : interf.attype = some "InterfaceInstance") (h2 : interf.name = some nm)
    (h3 : 0 < nm.length) (h4 : interf.schema = some sch)
    (h5 : sch.contents = none ∨ sch.contents = some []) :
    processEntry pcb ccb acc interf =
      Except.ok (setKey acc nm (buildInterface nm interf.id pcb ccb sch)) ∧
    List.lookup nm (setKey acc nm (buildInterface nm interf.id pcb ccb sch)) =
      some (buildInterface nm interf.id pcb ccb sch) ∧
    (buildInterface nm interf.id pcb ccb sch).properties = [] ∧
    (buildInterface nm interf.id pcb ccb sch).commands = [] ∧
    (buildInterface nm interf.id pcb ccb sch).telemetry = [] := by
  refine ⟨?_, ?_, ?_, ?_, ?_⟩
  · simp [processEntry, h1, h2, h3, h4]
  · simp [lookup_setKey]
  · rcases h5 with h5 | h5 <;> simp [buildInterface, h5, CommonInterface.new]
  · rcases h5 with h5 | h5 <;> simp [buildInterface, h5, CommonInterface.new]
  · rcases h5 with h5 | h5 <;> simp [buildInterface, h5, CommonInterface.new]

/-- Witness for the empty-contents claim at a concrete entry. -/
theorem processEntry_empty_contents_witness :
    processEntry (() : Unit) (() : Unit) ([] : InterfaceMap Unit Unit) entryNoContents =
      Except.ok (setKey [] "b" (buildInterface "b" (some "urn:b") () () ⟨none⟩)) :=
  (processEntry_empty_contents () () [] entryNoContents "b" ⟨none⟩ rfl rfl (by decide)
    rfl (Or.inl rfl)).1

/-- Claim C1, counterexample: `parse` does not return a map for every
capability model document — on a document whose single
`InterfaceInstance` entry has the non-empty name `"a"` but no schema
object, it raises a `TypeError` instead of returning a map with the key
`"a"`. -/
theorem parse_total_counterexample :
    parse docNoSchema (() : Unit) (() : Unit) = Except.error schemaTypeError := rfl

/-- Claim C1 (amended): whenever `parse` returns a map (equivalently, by
`parse_error_iff`, whenever every `InterfaceInstance` entry with a
non-empty name carries a schema object), the map's keys are exactly the
names of the entries of `implements` whose `"@type"` is
`'InterfaceInstance'` and whose name is a non-empty string, each key
bound to a descriptor built from such an entry's name and `"@id"`; and
when the document is absent, or `implements` is absent or empty, the
result is the empty map. -/
theorem parse_ok_keys (doc : Option CapabilityModel) (pcb : P) (ccb : C)
    (m : InterfaceMap P C) (h : parse doc pcb ccb = Except.ok m) :
    (∀ k, (List.lookup k m).isSome = true ↔ k ∈ selectedNames doc) ∧
    (∀ k cInf, List.lookup k m = some cInf →
      ∃ interf sch, entryOf doc interf ∧ selects interf k = true ∧
        interf.schema = some sch ∧ cInf = buildInterface k interf.id pcb ccb sch) ∧
    (emptyImplements doc → m = []) := by
  rcases parse_ok_inv doc pcb ccb m h with ⟨hemp, rfl⟩ | ⟨cm, l, rfl, him, hl, hgood, rfl⟩
  · have hsel : selectedNames doc = [] := by
      rcases hemp with rfl | ⟨cm, rfl, hio⟩
      · rfl
      · rcases hio with hio | hio <;> simp [selectedNames, hio, selNames]
    refine ⟨?_, ?_, fun _ => rfl⟩
    · intro k
      simp [hsel, List.lookup]
    · intro k cInf hcl
      simp [List.lookup] at hcl
  · refine ⟨?_, ?_, ?_⟩
    · intro k
      constructor
      · intro hk
        rcases hls : lastSelFold l k with _ | i
        · rw [lookup_foldl_of_none pcb ccb l k
            ((lastSelFold_none_iff l k).mp hls) []] at hk
          simp [List.lookup] at hk
        · obtain ⟨hmem2, hsel2⟩ := lastSelFold_mem l k i hls
          have : k ∈ selNames l := (selNames_mem l k).mpr ⟨i, hmem2, hsel2⟩
          simpa [selectedNames, him] using this
      · intro hk
        have hk2 : ∃ i, i ∈ l ∧ selects i k = true :=
          (selNames_mem l k).mp (by simpa [selectedNames, him] using hk)
        rcases hls : lastSelFold l k with _ | i
        · obtain ⟨i, hi, hsel2⟩ := hk2
          have hcon := (lastSelFold_none_iff l k).mp hls i hi
          rw [hsel2] at hcon
          exact absurd hcon (by simp)
        · obtain ⟨sch, hsch, hlook⟩ := lookup_foldl_of_some pcb ccb l k i hls hgood []
          rw [hlook]
          rfl
    · intro k cInf hcl
      rcases hls : lastSelFold l k with _ | i
      · rw [lookup_foldl_of_none pcb ccb l k
          ((lastSelFold_none_iff l k).mp hls) []] at hcl
        simp [List.lookup] at hcl
      · obtain ⟨sch, hsch, hlook⟩ := lookup_foldl_of_some pcb ccb l k i hls hgood []
        rw [hlook] at hcl
        obtain ⟨hmem2, hsel2⟩ := lastSelFold_mem l k i hls
        exact ⟨i, sch, ⟨cm, l, rfl, him, hmem2⟩, hsel2, hsch,
          (Option.some_injective _ hcl).symm⟩
    · rintro (h0 | ⟨cm2, heq, hio⟩)
      · exact absurd h0 (by simp)
      · obtain rfl : cm = cm2 := Option.some_injective _ heq
        rcases hio with hio | hio
        · rw [him] at hio
          exact absurd hio (by simp)
        · rw [him] at hio
          obtain rfl : l = [] := Option.some_injective _ hio
          simp at hl

/-- Witness for the amended key-set claim at a concrete well-formed
document. -/
theorem parse_ok_keys_witness :
    (List.lookup "a" mapA).isSome = true ↔ "a" ∈ selectedNames docA :=
  (parse_ok_keys docA () () mapA rfl).1 "a"

theorem itemsFuel_enough (items : List Item) (k : Nat) (cInf : CommonInterface P C) :
    itemsFuel (items.length + k) cInf items = some (k, items.foldl processItem cInf) := by
  induction items generalizing cInf with
  | nil => simp [itemsFuel]
  | cons it rest ih =>
      have harith : (it :: rest).length + k = (rest.length + k) + 1 := by
        simp
        omega
      rw [harith]
      calc itemsFuel ((rest.length + k) + 1) cInf (it :: rest)
          = itemsFuel (rest.length + k) (processItem cInf it) rest := rfl
        _ = some (k, rest.foldl processItem (processItem cInf it)) := ih _
        _ = some (k, (it :: rest).foldl processItem cInf) := by rw [List.foldl_cons]

theorem entriesFuel_cons (pcb : P) (ccb : C) (n : Nat) (acc : InterfaceMap P C)
    (interf : Interface) (rest : List Interface) :
    entriesFuel pcb ccb (n + 1) acc (interf :: rest) =
      (if interf.attype = some "InterfaceInstance" then
        match interf.name with
        | some nm =>
            if 0 < nm.length then
              match interf.schema with
              | some sch =>
                  match sch.contents with
                  | some items =>
                      if 0 < items.length then
                        match itemsFuel n (CommonInterface.new nm interf.id pcb ccb)
                            items with
                        | some (n2, cInf) =>
                            entriesFuel pcb ccb n2 (setKey acc nm cInf) rest
                        | none => none
                      else
                        entriesFuel pcb ccb n
                          (setKey acc nm (CommonInterface.new nm interf.id pcb ccb)) rest
                  | none =>
                      entriesFuel pcb ccb n
                        (setKey acc nm (CommonInterface.new nm interf.id pcb ccb)) rest
              | none => some (n, Except.error schemaTypeError)
            else entriesFuel pcb ccb n acc rest
        | none => entriesFuel pcb ccb n acc rest
      else entriesFuel pcb ccb n acc rest) := rfl

theorem entriesFuel_enough (pcb : P) (ccb : C) (l : List Interface) (k : Nat)
    (acc : InterfaceMap P C) :
    ∃ n2, entriesFuel pcb ccb (entriesCost l + k) acc l =
      some (n2, List.foldlM (processEntry pcb ccb) acc l) := by
  induction l generalizing acc k with
  | nil => exact ⟨entriesCost [] + k, rfl⟩
  | cons interf rest ih =>
      have harith : entriesCost (interf :: rest) + k =
          (itemsCost interf + entriesCost rest + k) + 1 := by
        simp [entriesCost]
        omega
      rw [harith, entriesFuel_cons, List.foldlM_cons]
      by_cases ht : interf.attype = some "InterfaceInstance"
      · rw [if_pos ht]
        rcases hnm : interf.name with _ | nm
        · simp only [hnm]
          have hpe : processEntry pcb ccb acc interf = Except.ok acc := by
            simp [processEntry, ht, hnm]
          rw [hpe]
          have hbind : (Except.ok acc >>= fun a =>
              List.foldlM (processEntry pcb ccb) a rest) =
              List.foldlM (processEntry pcb ccb) acc rest := rfl
          rw [hbind]
          have harith2 : itemsCost interf + entriesCost rest + k =
              entriesCost rest + (itemsCost interf + k) := by omega
          rw [harith2]
          exact ih _ _
        · simp only [hnm]
          by_cases hlen : 0 < nm.length
          · rw [if_pos hlen]
            rcases hsch : interf.schema with _ | sch
            · simp only [hsch]
              have hpe : processEntry pcb ccb acc interf =
                  Except.error schemaTypeError := by
                simp [processEntry, ht, hnm, hlen, hsch]
              rw [hpe]
              have hbind : ((Except.error schemaTypeError :
                  Except String (InterfaceMap P C)) >>= fun a =>
                  List.foldlM (processEntry pcb ccb) a rest) =
                  Except.error schemaTypeError := rfl
              rw [hbind]
              exact ⟨itemsCost interf + entriesCost rest + k, rfl⟩
            · simp only [hsch]
              rcases hco : sch.contents with _ | items
              · simp only [hco]
                have hpe : processEntry pcb ccb acc interf =
                    Except.ok (setKey acc nm
                      (CommonInterface.new nm interf.id pcb ccb)) := by
                  simp [processEntry, ht, hnm, hlen, hsch, buildInterface, hco]
                rw [hpe]
                have hbind : (Except.ok (setKey acc nm
                    (CommonInterface.new nm interf.id pcb ccb)) >>= fun a =>
                    List.foldlM (processEntry pcb ccb) a rest) =
                    List.foldlM (processEntry pcb ccb)
                      (setKey acc nm (CommonInterface.new nm interf.id pcb ccb)) rest := rfl
                rw [hbind]
                have harith2 : itemsCost interf + entriesCost rest + k =
                    entriesCost rest + (itemsCost interf + k) := by omega
                rw [harith2]
                exact ih _ _
              · simp only [hco]
                have hic : itemsCost interf = items.length := by
                  simp [itemsCost, hsch, hco]
                by_cases hil : 0 < items.length
                · rw [if_pos hil]
                  have hif : itemsFuel (itemsCost interf + entriesCost rest + k)
                      (CommonInterface.new nm interf.id pcb ccb) items =
                      some (entriesCost rest + k,
                        items.foldl processItem
                          (CommonInterface.new nm interf.id pcb ccb)) := by
                    rw [hic]
                    have h3 : items.length + entriesCost rest + k =
                        items.length + (entriesCost rest + k) := by omega
                    rw [h3]
                    exact itemsFuel_enough items _ _
                  rw [hif]
                  have hpe : processEntry pcb ccb acc interf =
                      Except.ok (setKey acc nm
                        (items.foldl processItem
                          (CommonInterface.new nm interf.id pcb ccb))) := by
                    simp [processEntry, ht, hnm, hlen, hsch, buildInterface, hco, hil]
                  rw [hpe]
                  have hbind : (Except.ok (setKey acc nm
                      (items.foldl processItem
                        (CommonInterface.new nm interf.id pcb ccb))) >>= fun a =>
                      List.foldlM (processEntry pcb ccb) a rest) =
                      List.foldlM (processEntry pcb ccb)
                        (setKey acc nm
                          (items.foldl processItem
                            (CommonInterface.new nm interf.id pcb ccb))) rest := rfl
                  rw [hbind]
                  exact ih _ _
                · rw [if_neg hil]
                  have hil0 : items = [] := by
                    cases items with
                    | nil => rfl
                    | cons a as => simp at hil
                  subst hil0
                  have hpe : processEntry pcb ccb acc interf =
                      Except.ok (setKey acc nm
                        (CommonInterface.new nm interf.id pcb ccb)) := by
                    simp [processEntry, ht, hnm, hlen, hsch, buildInterface, hco]
                  rw [hpe]
                  have hbind : (Except.ok (setKey acc nm
                      (CommonInterface.new nm interf.id pcb ccb)) >>= fun a =>
                      List.foldlM (processEntry pcb ccb) a rest) =
                      List.foldlM (processEntry pcb ccb)
                        (setKey acc nm (CommonInterface.new nm interf.id pcb ccb)) rest := rfl
                  rw [hbind]
                  have harith2 : itemsCost interf + entriesCost rest + k =
                      entriesCost rest + (itemsCost interf + k) := by omega
                  rw [harith2]
                  exact ih _ _
          · rw [if_neg hlen]
            have hpe : processEntry pcb ccb acc interf = Except.ok acc := by
              simp [processEntry, ht, hnm, hlen]
            rw [hpe]
            have hbind : (Except.ok acc >>= fun a =>
                List.foldlM (processEntry pcb ccb) a rest) =
                List.foldlM (processEntry pcb ccb) acc rest := rfl
            rw [hbind]
            have harith2 : itemsCost interf + entriesCost rest + k =
                entriesCost rest + (itemsCost interf + k) := by omega
            rw [harith2]
            exact ih _ _
      · rw [if_neg ht]
        have hpe : processEntry pcb ccb acc interf = Except.ok acc := by
          simp [processEntry, ht]
        rw [hpe]
        have hbind : (Except.ok acc >>= fun a =>
            List.foldlM (processEntry pcb ccb) a rest) =
            List.foldlM (processEntry pcb ccb) acc rest := rfl
        rw [hbind]
        have harith2 : itemsCost interf + entriesCost rest + k =
            entriesCost rest + (itemsCost interf + k) := by omega
        rw [harith2]
        exact ih _ _

/-- Claim C5: `parse` terminates on every finite input document — with a
budget of one visit per entry of `implements` plus one per item of each
entry's `schema.contents`, the fuel-instrumented single walk completes
and returns exactly `parse`'s result. -/
theorem parse_terminates (doc : Option CapabilityModel) (pcb : P) (ccb : C) :
    parseFuel (docCost doc) doc pcb ccb = some (parse doc pcb ccb) := by
  cases doc with
  | none => rfl
  | some cm =>
      rcases him : cm.implements with _ | l
      · simp [parseFuel, parse, him]
      · by_cases hl : 0 < l.length
        · obtain ⟨n2, hn⟩ := entriesFuel_enough pcb ccb l 0 ([] : InterfaceMap P C)
          rw [Nat.add_zero] at hn
          simp [parseFuel, parse, him, hl, docCost, hn]
        · simp [parseFuel, parse, him, hl, docCost]

theorem processItemMut_eq (cInf : CommonInterface P C) (item : Item) :
    processItemMut cInf item = (processItem cInf item, item) := by
  rcases hat : item.attype with _ | t
  · simp [processItemMut, processItem, hat]
  · simp only [processItemMut, processItem, hat]
    by_cases hp : t = "Property"
    · simp [hp]
    · by_cases hc : t = "Command"
      · simp [hp, hc]
      · by_cases htl : t = "Telemetry" <;> simp [hp, hc, htl]

theorem itemsMut_eq (items : List Item) (cInf : CommonInterface P C) :
    itemsMut cInf items = (items.foldl processItem cInf, items) := by
  induction items generalizing cInf with
  | nil => rfl
  | cons it rest ih =>
      simp [itemsMut, processItemMut_eq, ih (processItem cInf it), List.foldl_cons]

theorem processEntryMut_eq (pcb : P) (ccb : C) (res : InterfaceMap P C)
    (interf : Interface) :
    processEntryMut pcb ccb res interf = (processEntry pcb ccb res interf, interf) := by
  obtain ⟨t, nmo, id, scho⟩ := interf
  by_cases ht : t = some "InterfaceInstance"
  · rcases nmo with _ | nm
    · simp [processEntryMut, processEntry, ht]
    · by_cases hnm : 0 < nm.length
      · rcases scho with _ | sch
        · simp [processEntryMut, processEntry, ht, hnm]
        · obtain ⟨sco⟩ := sch
          rcases sco with _ | items
          · simp [processEntryMut, processEntry, ht, hnm, buildInterface]
          · by_cases hil : 0 < items.length
            · simp [processEntryMut, processEntry, ht, hnm, hil, buildInterface,
                itemsMut_eq]
            · simp [processEntryMut, processEntry, ht, hnm, hil, buildInterface]
      · simp [processEntryMut, processEntry, ht, hnm]
  · simp [processEntryMut, processEntry, ht]

theorem entriesMut_eq (pcb : P) (ccb : C) (l : List Interface) (acc : InterfaceMap P C) :
    entriesMut pcb ccb acc l = (List.foldlM (processEntry pcb ccb) acc l, l) := by
  induction l generalizing acc with
  | nil => rfl
  | cons interf rest ih =>
      rw [List.foldlM_cons]
      cases hpe : processEntry pcb ccb acc interf with
      | error e =>
          have hbind : ((Except.error e : Except String (InterfaceMap P C)) >>= fun a =>
              List.foldlM (processEntry pcb ccb) a rest) = Except.error e := rfl
          simp [entriesMut, processEntryMut_eq, hpe, hbind]
      | ok acc2 =>
          have hbind : (Except.ok acc2 >>= fun a =>
              List.foldlM (processEntry pcb ccb) a rest) =
              List.foldlM (processEntry pcb ccb) acc2 rest := rfl
          simp [entriesMut, processEntryMut_eq, hpe, hbind, ih acc2]

/-- Claim C7: `parse` never mutates its `capabilityModel` argument —
the instrumented walk `parseMut`, which threads the state of the
document (its `implements` array, every entry, and every contents item)
through each step of the source, both computes `parse`'s result and
returns the document unchanged. -/
theorem parse_no_mutation (doc : Option CapabilityModel) (pcb : P) (ccb : C) :
    parseMut doc pcb ccb = (parse doc pcb ccb, doc) := by
  cases doc with
  | none => rfl
  | some cm =>
      obtain ⟨io⟩ := cm
      rcases io with _ | l
      · rfl
      · by_cases hl : 0 < l.length
        · simp [parseMut, parse, hl, entriesMut_eq]
        · simp [parseMut, parse, hl]

/-- Claim C4: every facade operation of `IIoTCClient`, `IIoTCCommand`
and `IIoTCProperty` (connect, disconnect, sendTelemetry, sendProperty,
acknowledge, update, report) exists in a promise-returning and a
callback-taking form; both forward the call to the injected
transport/provisioning implementation, and the callback form delivers
exactly the error/`Result` outcome the promise form settles with. -/
theorem client_call_styles {π α β : Type} (t : Transport π α) (op : ClientOp π)
    (cb : SendCallback α β) :
    promiseForm t op = t op ∧
    callbackForm t op cb = deliver cb (promiseForm t op) := by
  refine ⟨rfl, ?_⟩
  cases h : t op <;> simp [callbackForm, deliver, promiseForm, h]

end IoTC
